import Mathlib

/-!
# FRAUDBUSTER `nlp_module/train_model.py` — formal model and verification

A shallow embedding of the fraud-detection training pipeline
(`src/nlp_module/train_model.py`) together with proofs of the testable
properties the specification states about it.

Strings are modelled as Lean `String`s operated on through their character
lists.  The Python character class `\s` (= `str.split()` whitespace) is
modelled by CPython's complete whitespace code-point list; `\w` is modelled
exactly on the ASCII range and, beyond it, on the one non-ASCII letter this
development exercises (İ, U+0130); `str.lower()` is modelled per code
point, including the sole length-changing lowercase mapping of Unicode,
İ → "i" + U+0307.  Library calls that live outside the repository
(scikit-learn's vectorizer, split and metric functions) are modelled from
the specification text; each such definition says so in its doc comment.
-/

namespace FraudBuster

/-! ## Text normalizer: `clean_text` (train_model.py lines 20-39) -/

/-- The stop-word list hard-coded in `train_model.py` lines 20-30. -/
def stop_words : List String :=
  ["i", "me", "my", "myself", "we", "our", "ours", "ourselves", "you", "your", "yours",
   "yourself", "yourselves", "he", "him", "his", "himself", "she", "her", "hers",
   "herself", "it", "its", "itself", "they", "them", "their", "theirs", "themselves",
   "what", "which", "who", "whom", "this", "that", "these", "those", "am", "is", "are",
   "was", "were", "be", "been", "being", "have", "has", "had", "having", "do", "does",
   "did", "doing", "a", "an", "the", "and", "but", "if", "or", "because", "as", "until",
   "while", "of", "at", "by", "for", "with", "through", "during", "before", "after",
   "above", "below", "up", "down", "in", "out", "on", "off", "over", "under", "again",
   "further", "then", "once"]

/-- Characters matched by the regex class `[\r\n]` in
`re.sub(r'[\r\n]+', ' ', text)`. -/
def isNewlineChar (c : Char) : Bool := c == '\r' || c == '\n'

/-- Python word characters (regex `\w` with Unicode semantics): underscore
or alphanumeric.  The model is exact on the ASCII range (letters, digits,
underscore).  Beyond ASCII, Python's word-ness comes from the Unicode
category tables; this development exercises exactly one non-ASCII
character, İ (U+0130, LATIN CAPITAL LETTER I WITH DOT ABOVE — a letter, so
matched by `\w`), listed explicitly.  Its lowercase image U+0307 COMBINING
DOT ABOVE is a nonspacing mark, matched by neither `\w` nor `\s`, hence
absent.  Every theorem below that quantifies over arbitrary texts
restricts them to the ASCII range, where the model is exact. -/
def isWordChar (c : Char) : Bool := c.isAlphanum || c == '_' || c == 'İ'

/-- Python whitespace: regex `\s` and no-argument `str.split()` both use
CPython's `Py_UNICODE_ISSPACE`, whose complete code-point list is
0x09-0x0D, 0x1C-0x1F, 0x20, 0x85, 0xA0, 0x1680, 0x2000-0x200A, 0x2028,
0x2029, 0x202F, 0x205F, 0x3000. -/
def isPySpace (c : Char) : Bool :=
  c.toNat == 9 || c.toNat == 10 || c.toNat == 11 || c.toNat == 12 || c.toNat == 13 ||
  c.toNat == 28 || c.toNat == 29 || c.toNat == 30 || c.toNat == 31 || c.toNat == 32 ||
  c.toNat == 133 || c.toNat == 160 || c.toNat == 5760 ||
  c.toNat == 8192 || c.toNat == 8193 || c.toNat == 8194 || c.toNat == 8195 ||
  c.toNat == 8196 || c.toNat == 8197 || c.toNat == 8198 || c.toNat == 8199 ||
  c.toNat == 8200 || c.toNat == 8201 || c.toNat == 8202 ||
  c.toNat == 8232 || c.toNat == 8233 || c.toNat == 8239 || c.toNat == 8287 ||
  c.toNat == 12288

/-- Worker for `re.sub(r'[\r\n]+', ' ', text)`: each maximal run of
carriage-return/line-feed characters becomes a single space.  The flag
records whether we are inside such a run. -/
def collapseAux : Bool → List Char → List Char
  | _, [] => []
  | inRun, c :: cs =>
    if isNewlineChar c then
      if inRun then collapseAux true cs else ' ' :: collapseAux true cs
    else c :: collapseAux false cs

/-- `re.sub(r'[\r\n]+', ' ', text)`. -/
def collapseNewlines (s : List Char) : List Char := collapseAux false s

/-- `re.sub(r'[^\w\s]', '', text)`: delete every character that is neither a
word character nor whitespace. -/
def stripNonWord (s : List Char) : List Char :=
  s.filter (fun c => isWordChar c || isPySpace c)

/-- Python `str.lower()` on one code point.  ASCII A-Z lower to a-z
(`Char.toLower`).  The single length-changing lowercase mapping of
Unicode's SpecialCasing, which `str.lower()` applies, is
İ (U+0130) → "i" followed by U+0307 COMBINING DOT ABOVE — two code
points.  The non-ASCII characters this development exercises otherwise
lower to themselves, as `Char.toLower` leaves them. -/
def pyLowerChar (c : Char) : List Char :=
  if c = 'İ' then ['i', '\u0307'] else [c.toLower]

/-- `text.lower()`: concatenation of the per-code-point lowercase images. -/
def lowerChars (s : List Char) : List Char := s.flatMap pyLowerChar

/-- Worker for Python `str.split()` with no separator: split on runs of
whitespace, dropping empty tokens.  `acc` is the word currently being read. -/
def splitWsAux : List Char → List Char → List (List Char)
  | acc, [] => if acc.isEmpty then [] else [acc]
  | acc, c :: cs =>
    if isPySpace c then
      if acc.isEmpty then splitWsAux [] cs else acc :: splitWsAux [] cs
    else splitWsAux (acc ++ [c]) cs

/-- Python `text.split()`. -/
def splitWs (s : List Char) : List (List Char) := splitWsAux [] s

/-- Python `' '.join(words)`. -/
def joinWords : List (List Char) → List Char
  | [] => []
  | [w] => w
  | w :: x :: ws => w ++ ' ' :: joinWords (x :: ws)

/-- The stop words as character lists, for token comparison. -/
def stop_words_chars : List (List Char) := stop_words.map String.toList

/-- The token filter of `clean_text` line 38:
`word not in stop_words and len(word) > 2`. -/
def keepWord (w : List Char) : Bool :=
  !(stop_words_chars.contains w) && decide (2 < w.length)

/-- The character-list body of `clean_text` (lines 35-39): collapse newline
runs to a space, strip non-word non-space characters, lowercase, then split
into tokens, drop stop words and short words, and rejoin with single
spaces. -/
def cleanChars (s : List Char) : List Char :=
  joinWords ((splitWs (lowerChars (stripNonWord (collapseNewlines s)))).filter keepWord)

/-- `clean_text` (train_model.py lines 32-39).  A `none` input models a
pandas-null cell (`pd.isnull`), which returns the empty string. -/
def clean_text (text : Option String) : String :=
  match text with
  | none => ""
  | some t => String.mk (cleanChars t.toList)

/-! ### Character-level facts -/

theorem char_eq_iff_toNat {a b : Char} : a = b ↔ a.toNat = b.toNat := by
  constructor
  · intro h; rw [h]
  · intro h
    rw [← Char.ofNat_toNat a, h, Char.ofNat_toNat]

theorem isNewlineChar_iff {c : Char} :
    isNewlineChar c = true ↔ c.toNat = 13 ∨ c.toNat = 10 := by
  simp only [isNewlineChar, Bool.or_eq_true, beq_iff_eq]
  rw [char_eq_iff_toNat, char_eq_iff_toNat]
  exact Iff.rfl

theorem isPySpace_iff {c : Char} :
    isPySpace c = true ↔
      (9 ≤ c.toNat ∧ c.toNat ≤ 13) ∨ (28 ≤ c.toNat ∧ c.toNat ≤ 32) ∨
      c.toNat = 133 ∨ c.toNat = 160 ∨ c.toNat = 5760 ∨
      (8192 ≤ c.toNat ∧ c.toNat ≤ 8202) ∨ c.toNat = 8232 ∨ c.toNat = 8233 ∨
      c.toNat = 8239 ∨ c.toNat = 8287 ∨ c.toNat = 12288 := by
  simp only [isPySpace, Bool.or_eq_true, beq_iff_eq]
  omega

theorem uint32_le_iff_toNat {a b : UInt32} : a ≤ b ↔ a.toNat ≤ b.toNat := by
  rw [UInt32.le_def, BitVec.le_def]
  exact Iff.rfl

theorem isWordChar_iff {c : Char} :
    isWordChar c = true ↔
      (65 ≤ c.toNat ∧ c.toNat ≤ 90) ∨ (97 ≤ c.toNat ∧ c.toNat ≤ 122) ∨
      (48 ≤ c.toNat ∧ c.toNat ≤ 57) ∨ c.toNat = 95 ∨ c.toNat = 304 := by
  simp only [isWordChar, Char.isAlphanum, Char.isAlpha, Char.isUpper, Char.isLower,
    Char.isDigit, Bool.or_eq_true, Bool.and_eq_true, beq_iff_eq, decide_eq_true_eq,
    char_eq_iff_toNat, ge_iff_le, uint32_le_iff_toNat, Char.toNat]
  simp only [show ((65 : UInt32)).toNat = 65 from rfl, show ((90 : UInt32)).toNat = 90 from rfl,
    show ((97 : UInt32)).toNat = 97 from rfl, show ((122 : UInt32)).toNat = 122 from rfl,
    show ((48 : UInt32)).toNat = 48 from rfl, show ((57 : UInt32)).toNat = 57 from rfl,
    show ('_' : Char).val.toNat = 95 from rfl,
    show ('İ' : Char).val.toNat = 304 from rfl]
  omega

theorem toNat_ofNat_valid {m : Nat} (h : m.isValidChar) : (Char.ofNat m).toNat = m := by
  rw [Char.ofNat, dif_pos h]
  rfl

theorem toNat_toLower (c : Char) :
    c.toLower.toNat = if 65 ≤ c.toNat ∧ c.toNat ≤ 90 then c.toNat + 32 else c.toNat := by
  rw [Char.toLower]
  split
  · next h => exact toNat_ofNat_valid (Or.inl (by omega))
  · next h => rfl

theorem toLower_toLower (c : Char) : c.toLower.toLower = c.toLower := by
  rw [char_eq_iff_toNat]
  rw [toNat_toLower c.toLower, toNat_toLower c]
  split_ifs <;> omega

theorem toLower_space : Char.toLower ' ' = ' ' := rfl

theorem wordOrSpace_toLower {c : Char} (h : (isWordChar c || isPySpace c) = true) :
    (isWordChar c.toLower || isPySpace c.toLower) = true := by
  rw [Bool.or_eq_true] at h ⊢
  rw [isWordChar_iff, isPySpace_iff] at h ⊢
  rw [toNat_toLower]
  split_ifs <;> omega

theorem not_pySpace_of_wordChar {c : Char} (h : isWordChar c = true) : isPySpace c = false := by
  cases hb : isPySpace c with
  | false => rfl
  | true =>
    rw [isPySpace_iff] at hb
    rw [isWordChar_iff] at h
    omega

theorem not_newline_of_wordChar {c : Char} (h : isWordChar c = true) :
    isNewlineChar c = false := by
  cases hb : isNewlineChar c with
  | false => rfl
  | true =>
    rw [isNewlineChar_iff] at hb
    rw [isWordChar_iff] at h
    omega

theorem not_newline_space : isNewlineChar ' ' = false := rfl

theorem pySpace_space : isPySpace ' ' = true := rfl

/-! ### Collapsing newline runs -/

theorem length_collapseAux (b : Bool) (s : List Char) :
    (collapseAux b s).length ≤ s.length := by
  induction s generalizing b with
  | nil => simp [collapseAux]
  | cons c cs ih =>
    simp only [collapseAux]
    split
    · split
      · exact Nat.le_succ_of_le (ih true)
      · simpa using Nat.succ_le_succ (ih true)
    · simpa using Nat.succ_le_succ (ih false)

theorem collapseAux_eq_self {s : List Char} (h : ∀ c ∈ s, isNewlineChar c = false) :
    ∀ b, collapseAux b s = s := by
  induction s with
  | nil => intro b; rfl
  | cons c cs ih =>
    intro b
    have hc := h c (List.mem_cons_self c cs)
    have hrest : ∀ d ∈ cs, isNewlineChar d = false :=
      fun d hd => h d (List.mem_cons_of_mem c hd)
    simp only [collapseAux, hc]
    simp [ih hrest false]

/-! ### Whitespace splitting -/

theorem splitWsAux_ne_nil {s : List Char} :
    ∀ {acc w : List Char}, w ∈ splitWsAux acc s → w ≠ [] := by
  induction s with
  | nil =>
    intro acc w hw
    simp only [splitWsAux] at hw
    split at hw
    · simp at hw
    · next h =>
      simp only [List.mem_singleton] at hw
      subst hw
      simpa [List.isEmpty_iff] using h
  | cons c cs ih =>
    intro acc w hw
    simp only [splitWsAux] at hw
    split at hw
    · split at hw
      · exact ih hw
      · next h =>
        rcases List.mem_cons.mp hw with h1 | h1
        · subst h1; simpa [List.isEmpty_iff] using h
        · exact ih h1
    · exact ih hw

theorem splitWsAux_mem_chars {s : List Char} :
    ∀ {acc w : List Char}, w ∈ splitWsAux acc s → ∀ c ∈ w, c ∈ acc ∨ c ∈ s := by
  induction s with
  | nil =>
    intro acc w hw c hc
    simp only [splitWsAux] at hw
    split at hw
    · simp at hw
    · simp only [List.mem_singleton] at hw
      subst hw
      exact Or.inl hc
  | cons d cs ih =>
    intro acc w hw c hc
    simp only [splitWsAux] at hw
    split at hw
    · split at hw
      · rcases ih hw c hc with h | h
        · simp at h
        · exact Or.inr (List.mem_cons_of_mem d h)
      · rcases List.mem_cons.mp hw with h1 | h1
        · subst h1; exact Or.inl hc
        · rcases ih h1 c hc with h | h
          · simp at h
          · exact Or.inr (List.mem_cons_of_mem d h)
    · rcases ih hw c hc with h | h
      · rcases List.mem_append.mp h with h2 | h2
        · exact Or.inl h2
        · simp only [List.mem_singleton] at h2
          exact Or.inr (by rw [h2]; exact List.mem_cons_self d cs)
      · exact Or.inr (List.mem_cons_of_mem d h)

theorem splitWsAux_nonspace {s : List Char} :
    ∀ {acc : List Char}, (∀ c ∈ acc, isPySpace c = false) →
      ∀ {w : List Char}, w ∈ splitWsAux acc s → ∀ c ∈ w, isPySpace c = false := by
  induction s with
  | nil =>
    intro acc hacc w hw c hc
    simp only [splitWsAux] at hw
    split at hw
    · simp at hw
    · simp only [List.mem_singleton] at hw
      subst hw
      exact hacc c hc
  | cons d cs ih =>
    intro acc hacc w hw c hc
    simp only [splitWsAux] at hw
    split at hw
    · next hd =>
      split at hw
      · exact ih (by simp) hw c hc
      · rcases List.mem_cons.mp hw with h1 | h1
        · subst h1; exact hacc c hc
        · exact ih (by simp) h1 c hc
    · next hd =>
      refine ih ?_ hw c hc
      intro e he
      rcases List.mem_append.mp he with h2 | h2
      · exact hacc e h2
      · simp only [List.mem_singleton] at h2
        subst h2
        simpa using hd

theorem splitWsAux_cons_nonspace {acc : List Char} {c : Char} {cs : List Char}
    (hc : isPySpace c = false) :
    splitWsAux acc (c :: cs) = splitWsAux (acc ++ [c]) cs := by
  simp [splitWsAux, hc]

theorem splitWsAux_append_word {r : List Char} :
    ∀ {t acc : List Char}, (∀ c ∈ t, isPySpace c = false) →
      splitWsAux acc (t ++ r) = splitWsAux (acc ++ t) r := by
  intro t
  induction t with
  | nil => intro acc _; simp
  | cons c t' ih =>
    intro acc ht
    have hc := ht c (List.mem_cons_self c t')
    rw [List.cons_append, splitWsAux_cons_nonspace hc,
      ih (fun d hd => ht d (List.mem_cons_of_mem c hd))]
    simp

theorem splitWsAux_space_cons {acc r : List Char} (h : acc ≠ []) :
    splitWsAux acc (' ' :: r) = acc :: splitWsAux [] r := by
  simp only [splitWsAux, pySpace_space]
  simp [List.isEmpty_iff, h]

theorem splitWsAux_nil_of_ne {acc : List Char} (h : acc ≠ []) :
    splitWsAux acc [] = [acc] := by
  simp only [splitWsAux]
  simp [List.isEmpty_iff, h]

theorem splitWs_joinWords :
    ∀ {ws : List (List Char)},
      (∀ w ∈ ws, w ≠ [] ∧ ∀ c ∈ w, isPySpace c = false) →
      splitWs (joinWords ws) = ws := by
  intro ws
  induction ws with
  | nil => intro _; rfl
  | cons w ws ih =>
    intro h
    have hw := h w (List.mem_cons_self w ws)
    cases ws with
    | nil =>
      show splitWsAux [] (joinWords [w]) = [w]
      have : joinWords [w] = w ++ [] := by simp [joinWords]
      rw [this, splitWsAux_append_word hw.2]
      exact splitWsAux_nil_of_ne (by simpa using hw.1)
    | cons x ws' =>
      show splitWsAux [] (w ++ ' ' :: joinWords (x :: ws')) = w :: x :: ws'
      rw [splitWsAux_append_word hw.2]
      rw [List.nil_append]
      rw [splitWsAux_space_cons hw.1]
      congr 1
      exact ih (fun v hv => h v (List.mem_cons_of_mem w hv))

/-! ### Joining with single spaces -/

theorem joinWords_length_cons (w : List Char) (ws : List (List Char)) :
    (joinWords (w :: ws)).length =
      if ws = [] then w.length else w.length + 1 + (joinWords ws).length := by
  cases ws with
  | nil => simp [joinWords]
  | cons x ws' => simp [joinWords]; omega

theorem joinWords_length_le_cons (w : List Char) (ws : List (List Char)) :
    (joinWords (w :: ws)).length ≤ w.length + 1 + (joinWords ws).length := by
  rw [joinWords_length_cons]
  split <;> omega

theorem length_le_joinWords_cons (w : List Char) (ws : List (List Char)) :
    (joinWords ws).length ≤ (joinWords (w :: ws)).length := by
  rw [joinWords_length_cons]
  split
  · next h => subst h; simp [joinWords]
  · omega

theorem joinWords_filter_length_le (p : List Char → Bool) :
    ∀ ws : List (List Char),
      (joinWords (ws.filter p)).length ≤ (joinWords ws).length := by
  intro ws
  induction ws with
  | nil => simp
  | cons w ws ih =>
    cases hp : p w with
    | false =>
      have hf : (w :: ws).filter p = ws.filter p := by simp [List.filter_cons, hp]
      rw [hf]
      exact le_trans ih (length_le_joinWords_cons w ws)
    | true =>
      have hf : (w :: ws).filter p = w :: ws.filter p := by simp [List.filter_cons, hp]
      rw [hf, joinWords_length_cons, joinWords_length_cons]
      by_cases h2 : ws.filter p = []
      · rw [if_pos h2]
        by_cases h3 : ws = []
        · rw [if_pos h3]
        · rw [if_neg h3]; omega
      · have h3 : ws ≠ [] := fun h => h2 (by rw [h]; rfl)
        rw [if_neg h2, if_neg h3]
        omega

theorem mem_joinWords {c : Char} :
    ∀ {ws : List (List Char)}, c ∈ joinWords ws → (∃ w ∈ ws, c ∈ w) ∨ c = ' ' := by
  intro ws
  induction ws with
  | nil => intro h; simp [joinWords] at h
  | cons w ws ih =>
    intro h
    cases ws with
    | nil =>
      exact Or.inl ⟨w, List.mem_cons_self w [], h⟩
    | cons x ws' =>
      simp only [joinWords] at h
      rcases List.mem_append.mp h with h1 | h1
      · exact Or.inl ⟨w, List.mem_cons_self w _, h1⟩
      · rcases List.mem_cons.mp h1 with h2 | h2
        · exact Or.inr h2
        · rcases ih h2 with ⟨v, hv, hc⟩ | h3
          · exact Or.inl ⟨v, List.mem_cons_of_mem w hv, hc⟩
          · exact Or.inr h3

/-! ### Length bound through split and join -/

theorem joinWords_splitWsAux_length :
    ∀ (s acc : List Char), (joinWords (splitWsAux acc s)).length ≤ acc.length + s.length := by
  intro s
  induction s with
  | nil =>
    intro acc
    simp only [splitWsAux]
    split
    · simp [joinWords]
    · simp [joinWords]
  | cons c cs ih =>
    intro acc
    simp only [splitWsAux]
    split
    · split
      · next h =>
        have := ih []
        simp only [List.length_nil, Nat.zero_add] at this
        calc (joinWords (splitWsAux [] cs)).length ≤ cs.length := this
          _ ≤ acc.length + (c :: cs).length := by simp; omega
      · calc (joinWords (acc :: splitWsAux [] cs)).length
            ≤ acc.length + 1 + (joinWords (splitWsAux [] cs)).length :=
              joinWords_length_le_cons _ _
          _ ≤ acc.length + 1 + cs.length := by
              have := ih []
              simp only [List.length_nil, Nat.zero_add] at this
              omega
          _ = acc.length + (c :: cs).length := by simp; omega
    · calc (joinWords (splitWsAux (acc ++ [c]) cs)).length
          ≤ (acc ++ [c]).length + cs.length := ih (acc ++ [c])
        _ = acc.length + (c :: cs).length := by simp; omega

/-! ### ASCII inputs and the lowercase mapping -/

theorem ascii_toLower {c : Char} (h : c.toNat < 128) : c.toLower.toNat < 128 := by
  rw [toNat_toLower]
  split_ifs <;> omega

theorem pyLowerChar_ascii {c : Char} (h : c.toNat < 128) : pyLowerChar c = [c.toLower] := by
  rw [pyLowerChar, if_neg]
  intro he
  rw [he] at h
  exact absurd h (by decide)

theorem lowerChars_ascii :
    ∀ {s : List Char}, (∀ c ∈ s, c.toNat < 128) → lowerChars s = s.map Char.toLower := by
  intro s
  unfold lowerChars
  induction s with
  | nil => intro _; rfl
  | cons c cs ih =>
    intro h
    rw [List.flatMap_cons, List.map_cons, pyLowerChar_ascii (h c (List.mem_cons_self c cs)),
      ih (fun d hd => h d (List.mem_cons_of_mem c hd))]
    rfl

theorem lowerChars_fixed :
    ∀ {s : List Char}, (∀ c ∈ s, pyLowerChar c = [c]) → lowerChars s = s := by
  intro s
  unfold lowerChars
  induction s with
  | nil => intro _; rfl
  | cons c cs ih =>
    intro h
    rw [List.flatMap_cons, h c (List.mem_cons_self c cs),
      ih (fun d hd => h d (List.mem_cons_of_mem c hd))]
    rfl

theorem collapseAux_ascii :
    ∀ {s : List Char}, (∀ c ∈ s, c.toNat < 128) →
      ∀ b, ∀ c ∈ collapseAux b s, c.toNat < 128 := by
  intro s
  induction s with
  | nil =>
    intro _ b c hc
    simp [collapseAux] at hc
  | cons d cs ih =>
    intro h b c hc
    have hd := h d (List.mem_cons_self d cs)
    have hrest : ∀ x ∈ cs, x.toNat < 128 := fun x hx => h x (List.mem_cons_of_mem d hx)
    simp only [collapseAux] at hc
    split at hc
    · split at hc
      · exact ih hrest true c hc
      · rcases List.mem_cons.mp hc with h1 | h1
        · rw [h1]; decide
        · exact ih hrest true c h1
    · rcases List.mem_cons.mp hc with h1 | h1
      · rw [h1]; exact hd
      · exact ih hrest false c h1

/-! ### The normalizer output on ASCII input is in normal form -/

/-- The token list produced inside `cleanChars`. -/
def cleanTokens (s : List Char) : List (List Char) :=
  (splitWs (lowerChars (stripNonWord (collapseNewlines s)))).filter keepWord

theorem stripped_ascii (s : List Char) (hascii : ∀ c ∈ s, c.toNat < 128) :
    ∀ c ∈ stripNonWord (collapseNewlines s), c.toNat < 128 :=
  fun c hc =>
    collapseAux_ascii hascii false c (List.mem_filter.mp hc).1

theorem cleanTokens_good (s : List Char) (hascii : ∀ c ∈ s, c.toNat < 128) :
    ∀ w ∈ cleanTokens s, w ≠ [] ∧ keepWord w = true ∧
      ∀ c ∈ w, isWordChar c = true ∧ isPySpace c = false ∧ c.toLower = c ∧ c.toNat < 128 := by
  intro w hw
  have hw' := List.mem_filter.mp hw
  refine ⟨splitWsAux_ne_nil hw'.1, hw'.2, ?_⟩
  intro c hc
  have hns : isPySpace c = false := splitWsAux_nonspace (by simp) hw'.1 c hc
  have hmem : c ∈ lowerChars (stripNonWord (collapseNewlines s)) := by
    rcases splitWsAux_mem_chars hw'.1 c hc with h | h
    · simp at h
    · exact h
  rw [lowerChars_ascii (stripped_ascii s hascii)] at hmem
  rcases List.mem_map.mp hmem with ⟨d, hd, hdc⟩
  have hd2 : (isWordChar d || isPySpace d) = true := (List.mem_filter.mp hd).2
  have hda : d.toNat < 128 := stripped_ascii s hascii d hd
  have hlow : c.toLower = c := by rw [← hdc]; exact toLower_toLower d
  have hca : c.toNat < 128 := by rw [← hdc]; exact ascii_toLower hda
  have hws : (isWordChar c || isPySpace c) = true := by
    rw [← hdc]; exact wordOrSpace_toLower hd2
  rw [Bool.or_eq_true] at hws
  rcases hws with h | h
  · exact ⟨h, hns, hlow, hca⟩
  · rw [h] at hns; exact absurd hns (by simp)

theorem cleanChars_idem_ascii (s : List Char) (hascii : ∀ c ∈ s, c.toNat < 128) :
    cleanChars (cleanChars s) = cleanChars s := by
  have hg := cleanTokens_good s hascii
  show cleanChars (joinWords (cleanTokens s)) = joinWords (cleanTokens s)
  have hchars : ∀ c ∈ joinWords (cleanTokens s),
      (isWordChar c = true ∧ isPySpace c = false ∧ c.toLower = c ∧ c.toNat < 128) ∨
        c = ' ' := by
    intro c hc
    rcases mem_joinWords hc with ⟨w, hw, hcw⟩ | h
    · exact Or.inl ((hg w hw).2.2 c hcw)
    · exact Or.inr h
  unfold cleanChars
  have h1 : collapseNewlines (joinWords (cleanTokens s)) = joinWords (cleanTokens s) := by
    apply collapseAux_eq_self
    intro c hc
    rcases hchars c hc with ⟨hw, _, _, _⟩ | h
    · exact not_newline_of_wordChar hw
    · rw [h]; exact not_newline_space
  rw [h1]
  have h2 : stripNonWord (joinWords (cleanTokens s)) = joinWords (cleanTokens s) := by
    apply List.filter_eq_self.mpr
    intro c hc
    rcases hchars c hc with ⟨hw, _, _, _⟩ | h
    · simp [hw]
    · rw [h]; rfl
  rw [h2]
  have h3 : lowerChars (joinWords (cleanTokens s)) = joinWords (cleanTokens s) := by
    apply lowerChars_fixed
    intro c hc
    rcases hchars c hc with ⟨_, _, hl, hca⟩ | h
    · rw [pyLowerChar_ascii hca, hl]
    · rw [h, pyLowerChar_ascii (by decide), toLower_space]
  rw [h3]
  have h4 : splitWs (joinWords (cleanTokens s)) = cleanTokens s :=
    splitWs_joinWords (fun w hw =>
      ⟨(hg w hw).1, fun c hc => ((hg w hw).2.2 c hc).2.1⟩)
  rw [h4]
  have h5 : (cleanTokens s).filter keepWord = cleanTokens s :=
    List.filter_eq_self.mpr (fun w hw => (hg w hw).2.1)
  rw [h5]

theorem length_cleanChars_le_ascii (s : List Char) (hascii : ∀ c ∈ s, c.toNat < 128) :
    (cleanChars s).length ≤ s.length := by
  unfold cleanChars
  calc (joinWords ((splitWs (lowerChars (stripNonWord (collapseNewlines s)))).filter
          keepWord)).length
      ≤ (joinWords (splitWs (lowerChars (stripNonWord (collapseNewlines s))))).length :=
        joinWords_filter_length_le _ _
    _ ≤ (lowerChars (stripNonWord (collapseNewlines s))).length := by
        have := joinWords_splitWsAux_length (lowerChars (stripNonWord (collapseNewlines s))) []
        simpa using this
    _ = (stripNonWord (collapseNewlines s)).length := by
        rw [lowerChars_ascii (stripped_ascii s hascii), List.length_map]
    _ ≤ (collapseNewlines s).length := List.length_filter_le _ _
    _ ≤ s.length := length_collapseAux false s

/-- **C6, counterexample.** The normalizer is not idempotent on the source's
Unicode semantics: `clean_text('İab') = 'i̇ab'` (İ lowercases to "i" plus
the combining dot above U+0307), and a second pass strips U+0307 — a
nonspacing mark matched by neither `\w` nor `\s` — yielding `'iab'`. -/
theorem clean_text_idem_counterexample :
    clean_text (some (clean_text (some "İab"))) ≠ clean_text (some "İab") := by
  decide

/-- **C6, amended.** The text normalizer is idempotent on the null input and
on every string of ASCII characters; the counterexample above shows
idempotence fails once the lowercase mapping can emit combining marks. -/
theorem clean_text_idempotent_ascii :
    clean_text (some (clean_text none)) = clean_text none
    ∧ ∀ s : String, (∀ c ∈ s.toList, c.toNat < 128) →
        clean_text (some (clean_text (some s))) = clean_text (some s) := by
  constructor
  · rfl
  · intro s h
    show String.mk (cleanChars (String.toList (String.mk (cleanChars s.toList)))) =
      String.mk (cleanChars s.toList)
    rw [show String.toList (String.mk (cleanChars s.toList)) = cleanChars s.toList from rfl]
    rw [cleanChars_idem_ascii s.toList h]

/-- Witness for the amended C6 at a concrete ASCII input. -/
theorem clean_text_idempotent_ascii_witness :
    (∀ c ∈ ("The Great Job" : String).toList, c.toNat < 128) ∧
    clean_text (some (clean_text (some "The Great Job"))) =
      clean_text (some "The Great Job") :=
  ⟨by decide, clean_text_idempotent_ascii.2 "The Great Job" (by decide)⟩

/-- **C7, counterexample.** The length bound is false of the source:
`clean_text('İİ') = 'i̇i̇'`, four code points from a two-code-point input,
because `str.lower()` maps İ (U+0130) to the two code points
"i" + U+0307. -/
theorem clean_text_shrinking_counterexample :
    ¬ ((clean_text (some "İİ")).length ≤ ("İİ" : String).length)
    ∧ (clean_text (some "İİ")).length = 4 ∧ ("İİ" : String).length = 2 := by
  refine ⟨by decide, by decide, by decide⟩

/-- **C7, amended.** The text normalizer is total: it is a function
returning a string on every input (so it never raises) and the null/absent
input yields the empty string; the output length is at most the input
length for every string of ASCII characters, while the counterexample
above shows the bound fails once İ's two-code-point lowercase image is
involved. -/
theorem clean_text_total_shrinking_ascii :
    clean_text none = ""
    ∧ ∀ s : String, (∀ c ∈ s.toList, c.toNat < 128) →
        (clean_text (some s)).length ≤ s.length := by
  constructor
  · rfl
  · intro s h
    show (String.mk (cleanChars s.toList)).length ≤ s.length
    have h1 : (String.mk (cleanChars s.toList)).length = (cleanChars s.toList).length := rfl
    have h2 : s.length = s.toList.length := rfl
    rw [h1, h2]
    exact length_cleanChars_le_ascii _ h

/-- Witness for the amended C7 at a concrete ASCII input. -/
theorem clean_text_total_shrinking_ascii_witness :
    (∀ c ∈ ("Great Job!!" : String).toList, c.toNat < 128) ∧
    (clean_text (some "Great Job!!")).length ≤ ("Great Job!!" : String).length :=
  ⟨by decide, clean_text_total_shrinking_ascii.2 "Great Job!!" (by decide)⟩

/-! ## Corpus builder (train_model.py lines 41-59 and 200-217) -/

/-- A structured job-posting record: the seven text columns combined on
line 201, each possibly null (`fillna('')`), plus the ground-truth label of
the `fraudulent` column (1 = FRAUDULENT, 0 = LEGITIMATE). -/
structure JobRecord where
  title : Option String
  location : Option String
  department : Option String
  company_profile : Option String
  description : Option String
  requirements : Option String
  benefits : Option String
  fraudulent : Nat
deriving DecidableEq

/-- `fillna('')` on one cell. -/
def fillna (o : Option String) : String := o.getD ""

/-- Line 201: the seven text columns concatenated with single-space
separators, absent fields as empty strings. -/
def recordText (r : JobRecord) : String :=
  fillna r.title ++ " " ++ fillna r.location ++ " " ++ fillna r.department ++ " " ++
  fillna r.company_profile ++ " " ++ fillna r.description ++ " " ++
  fillna r.requirements ++ " " ++ fillna r.benefits

/-- The outcome of opening and reading one harvested `.mhtml` file:
`ok content` when the read succeeds, `failed err` when it raises. -/
inductive LoadResult where
  | ok (content : String)
  | failed (err : String)
deriving DecidableEq

/-- A corpus entry: normalized text plus label (1 = FRAUDULENT). -/
structure LabeledDoc where
  text : String
  fraudulent : Nat
deriving DecidableEq

/-- `extract_fraud_patterns_from_sites` (lines 41-59), with the
markup-to-plain-text extraction (`BeautifulSoup(...).get_text()`) injected as
`extractText`.  Returns the cleaned fraud-pattern texts in file order
together with the warnings recorded for files whose read raised
(the `print(f"Error reading {filename}: {e}")` on line 57); a failed file is
skipped and the loop continues. -/
def extract_fraud_patterns_from_sites (extractText : String → String) :
    List LoadResult → List String × List String
  | [] => ([], [])
  | LoadResult.ok content :: rest =>
    let r := extract_fraud_patterns_from_sites extractText rest
    (clean_text (some (extractText content)) :: r.1, r.2)
  | LoadResult.failed err :: rest =>
    let r := extract_fraud_patterns_from_sites extractText rest
    (r.1, err :: r.2)

/-- The contents of the successfully loaded files, in file order. -/
def okContents : List LoadResult → List String
  | [] => []
  | LoadResult.ok c :: rest => c :: okContents rest
  | LoadResult.failed _ :: rest => okContents rest

/-- The error messages of the failed files, in file order. -/
def failedErrors : List LoadResult → List String
  | [] => []
  | LoadResult.ok _ :: rest => failedErrors rest
  | LoadResult.failed e :: rest => e :: failedErrors rest

/-- Lines 200-203: one `LabeledDoc` per structured record, in record order,
carrying the record's own label. -/
def structuredDocs (records : List JobRecord) : List LabeledDoc :=
  records.map (fun r => ⟨clean_text (some (recordText r)), r.fraudulent⟩)

/-- Lines 210-217: the harvested fraud patterns are appended after the
structured records, each labeled `1` (FRAUDULENT) unconditionally; the
`if fraud_patterns:` guard skips the concatenation when no pattern was
extracted. -/
def buildCorpus (extractText : String → String) (records : List JobRecord)
    (files : List LoadResult) : List LabeledDoc :=
  if (extract_fraud_patterns_from_sites extractText files).1.isEmpty then
    structuredDocs records
  else
    structuredDocs records ++
      (extract_fraud_patterns_from_sites extractText files).1.map (fun t => ⟨t, 1⟩)

theorem extract_fst_eq (extractText : String → String) :
    ∀ files : List LoadResult,
      (extract_fraud_patterns_from_sites extractText files).1 =
        (okContents files).map (fun c => clean_text (some (extractText c))) := by
  intro files
  induction files with
  | nil => rfl
  | cons f rest ih =>
    cases f with
    | ok c => simp [extract_fraud_patterns_from_sites, okContents, ih]
    | failed e => simp [extract_fraud_patterns_from_sites, okContents, ih]

theorem extract_snd_eq (extractText : String → String) :
    ∀ files : List LoadResult,
      (extract_fraud_patterns_from_sites extractText files).2 = failedErrors files := by
  intro files
  induction files with
  | nil => rfl
  | cons f rest ih =>
    cases f with
    | ok c => simp [extract_fraud_patterns_from_sites, failedErrors, ih]
    | failed e => simp [extract_fraud_patterns_from_sites, failedErrors, ih]

theorem buildCorpus_eq (extractText : String → String) (records : List JobRecord)
    (files : List LoadResult) :
    buildCorpus extractText records files =
      structuredDocs records ++
        (okContents files).map
          (fun c => (⟨clean_text (some (extractText c)), 1⟩ : LabeledDoc)) := by
  unfold buildCorpus
  rw [extract_fst_eq]
  cases hc : okContents files with
  | nil => simp [hc]
  | cons a l =>
    simp only [List.map_cons, List.isEmpty_cons, Bool.false_eq_true, if_false]
    simp [List.map_map, Function.comp]

/-- **C3.** For `N` structured records and `H` successfully loaded harvested
documents, the corpus has exactly `N + H` entries: the first `N`, in record
order, carry each record's own label; the last `H`, in file order, are the
harvested documents, each labeled `1` (FRAUDULENT) unconditionally.  A file
whose read fails contributes no corpus entry but its warning is recorded,
and `buildCorpus` is a total function (the run is never aborted). -/
theorem buildCorpus_spec (extractText : String → String) (records : List JobRecord)
    (files : List LoadResult) :
    (buildCorpus extractText records files).length =
        records.length + (okContents files).length
    ∧ (buildCorpus extractText records files).take records.length =
        records.map (fun r => (⟨clean_text (some (recordText r)), r.fraudulent⟩ : LabeledDoc))
    ∧ (buildCorpus extractText records files).drop records.length =
        (okContents files).map
          (fun c => (⟨clean_text (some (extractText c)), 1⟩ : LabeledDoc))
    ∧ (extract_fraud_patterns_from_sites extractText files).2 = failedErrors files := by
  have hlen : (structuredDocs records).length = records.length := by
    simp [structuredDocs]
  refine ⟨?_, ?_, ?_, extract_snd_eq extractText files⟩
  · rw [buildCorpus_eq]
    simp [structuredDocs]
  · rw [buildCorpus_eq, ← hlen, List.take_left]
    rfl
  · rw [buildCorpus_eq, ← hlen, List.drop_left]

/-- **C10.** A harvested document that loads successfully is appended to the
corpus labeled FRAUDULENT even when its extracted text normalizes to the
empty string: it still counts toward the corpus size and the empty-text
fraudulent document is present in the corpus. -/
theorem buildCorpus_keeps_empty_fraud (extractText : String → String)
    (records : List JobRecord) (files : List LoadResult) (content : String)
    (hmem : LoadResult.ok content ∈ files)
    (hempty : clean_text (some (extractText content)) = "") :
    (buildCorpus extractText records files).length =
        records.length + (okContents files).length
    ∧ (⟨"", 1⟩ : LabeledDoc) ∈ buildCorpus extractText records files := by
  constructor
  · rw [buildCorpus_eq]
    simp [structuredDocs]
  · rw [buildCorpus_eq]
    apply List.mem_append.mpr
    right
    have hok : content ∈ okContents files := by
      induction files with
      | nil => simp at hmem
      | cons f rest ih =>
        rcases List.mem_cons.mp hmem with h | h
        · rw [← h]
          exact List.mem_cons_self _ _
        · cases f with
          | ok c => exact List.mem_cons_of_mem _ (ih h)
          | failed e => exact ih h
    have h2 : (⟨clean_text (some (extractText content)), 1⟩ : LabeledDoc) ∈
        (okContents files).map
          (fun c => (⟨clean_text (some (extractText c)), 1⟩ : LabeledDoc)) :=
      List.mem_map_of_mem (fun c => (⟨clean_text (some (extractText c)), 1⟩ : LabeledDoc)) hok
    rw [hempty] at h2
    exact h2

/-- Witness for C10 at a concrete input: one harvested file whose content
`"!!"` normalizes to the empty string. -/
theorem buildCorpus_keeps_empty_fraud_witness :
    (LoadResult.ok "!!" ∈ [LoadResult.ok "!!"]) ∧ clean_text (some "!!") = "" ∧
      ((buildCorpus id [] [LoadResult.ok "!!"]).length =
          ([] : List JobRecord).length + (okContents [LoadResult.ok "!!"]).length
       ∧ (⟨"", 1⟩ : LabeledDoc) ∈ buildCorpus id [] [LoadResult.ok "!!"]) :=
  ⟨by decide, by decide,
    buildCorpus_keeps_empty_fraud id [] [LoadResult.ok "!!"] "!!" (by decide) (by decide)⟩

/-! ## Evaluation metrics (train_model.py lines 231-241)

The metric functions themselves live in scikit-learn, outside this
repository; they are modelled from the specification (§4.6, §8). -/

/-- Modelled from the spec: one cell of sklearn's
`confusion_matrix(y_test, y_pred)` with label order {0, 1} — cell (i, j)
counts test instances with true label `i` and predicted label `j`. -/
def cmCell (yt yp : List Nat) (i j : Nat) : Nat :=
  ((yt.zip yp).filter (fun p => p.1 == i && p.2 == j)).length

/-- Modelled from the spec: the 2×2 confusion matrix, rows = true label,
columns = predicted label, order {LEGITIMATE (0), FRAUDULENT (1)} —
`((TN, FP), (FN, TP))`. -/
def confusion_matrix (yt yp : List Nat) : (Nat × Nat) × (Nat × Nat) :=
  ((cmCell yt yp 0 0, cmCell yt yp 0 1), (cmCell yt yp 1 0, cmCell yt yp 1 1))

/-- Modelled from the spec: sklearn `precision_score` — true positives over
predicted positives for the FRAUDULENT (1) class, 0 when nothing is
predicted positive. -/
def precision_score (yt yp : List Nat) : ℚ :=
  let tp := ((yt.zip yp).filter (fun p => p.1 == 1 && p.2 == 1)).length
  let predPos := (yp.filter (fun y => y == 1)).length
  if predPos = 0 then 0 else (tp : ℚ) / predPos

/-- Modelled from the spec: sklearn `recall_score` — true positives over
actual positives for the FRAUDULENT (1) class, 0 when no actual positive
exists. -/
def recall_score (yt yp : List Nat) : ℚ :=
  let tp := ((yt.zip yp).filter (fun p => p.1 == 1 && p.2 == 1)).length
  let actPos := (yt.filter (fun y => y == 1)).length
  if actPos = 0 then 0 else (tp : ℚ) / actPos

/-- Modelled from the spec: sklearn `accuracy_score` — fraction of positions
where prediction equals truth. -/
def accuracy_score (yt yp : List Nat) : ℚ :=
  (((yt.zip yp).filter (fun p => p.1 == p.2)).length : ℚ) / (yt.length : ℚ)

/-- Modelled from the spec: sklearn `f1_score` — harmonic mean of precision
and recall, 0 when both vanish. -/
def f1_score (yt yp : List Nat) : ℚ :=
  let p := precision_score yt yp
  let r := recall_score yt yp
  if p + r = 0 then 0 else 2 * p * r / (p + r)

theorem four_cell_partition :
    ∀ ps : List (Nat × Nat),
      (∀ p ∈ ps, (p.1 = 0 ∨ p.1 = 1) ∧ (p.2 = 0 ∨ p.2 = 1)) →
      (ps.filter (fun p => p.1 == 0 && p.2 == 0)).length +
        (ps.filter (fun p => p.1 == 0 && p.2 == 1)).length +
        (ps.filter (fun p => p.1 == 1 && p.2 == 0)).length +
        (ps.filter (fun p => p.1 == 1 && p.2 == 1)).length = ps.length := by
  intro ps
  induction ps with
  | nil => intro _; rfl
  | cons p ps ih =>
    intro h
    have hp := h p (List.mem_cons_self p ps)
    have hr := ih (fun q hq => h q (List.mem_cons_of_mem p hq))
    rcases hp with ⟨h1 | h1, h2 | h2⟩ <;>
      simp only [List.filter_cons, h1, h2] <;> simp <;> omega

theorem predPos_split :
    ∀ (yt yp : List Nat), yt.length = yp.length →
      (∀ y ∈ yt, y = 0 ∨ y = 1) →
      (yp.filter (fun y => y == 1)).length =
        cmCell yt yp 0 1 + cmCell yt yp 1 1 := by
  intro yt
  induction yt with
  | nil =>
    intro yp hlen _
    have : yp = [] := List.length_eq_zero.mp hlen.symm
    subst this
    rfl
  | cons a yt ih =>
    intro yp hlen hbin
    cases yp with
    | nil => simp at hlen
    | cons b yp =>
      have hlen' : yt.length = yp.length := by simpa using hlen
      have hbin' : ∀ y ∈ yt, y = 0 ∨ y = 1 :=
        fun y hy => hbin y (List.mem_cons_of_mem a hy)
      have hrec := ih yp hlen' hbin'
      rcases hbin a (List.mem_cons_self a yt) with ha | ha <;>
        cases hb : b == 1 <;>
          simp only [cmCell, List.zip_cons_cons, List.filter_cons, ha, hb] at hrec ⊢ <;>
          simp at hb ⊢ <;>
          omega

theorem actPos_split :
    ∀ (yt yp : List Nat), yt.length = yp.length →
      (∀ y ∈ yp, y = 0 ∨ y = 1) →
      (yt.filter (fun y => y == 1)).length =
        cmCell yt yp 1 0 + cmCell yt yp 1 1 := by
  intro yt
  induction yt with
  | nil =>
    intro yp hlen _
    have : yp = [] := List.length_eq_zero.mp hlen.symm
    subst this
    rfl
  | cons a yt ih =>
    intro yp hlen hbin
    cases yp with
    | nil => simp at hlen
    | cons b yp =>
      have hlen' : yt.length = yp.length := by simpa using hlen
      have hbin' : ∀ y ∈ yp, y = 0 ∨ y = 1 :=
        fun y hy => hbin y (List.mem_cons_of_mem b hy)
      have hrec := ih yp hlen' hbin'
      rcases hbin b (List.mem_cons_self b yp) with hb | hb <;>
        cases ha : a == 1 <;>
          simp only [cmCell, List.zip_cons_cons, List.filter_cons, ha, hb] at hrec ⊢ <;>
          simp at ha ⊢ <;>
          omega

/-- **C2.** With binary labels and equally long truth/prediction vectors,
the four confusion-matrix cells sum to the test-set size, and the reported
precision and recall equal `TP/(TP+FP)` and `TP/(TP+FN)` read from that
confusion matrix (whenever those ratios are defined). -/
theorem evaluator_metrics_consistent (yt yp : List Nat)
    (hlen : yt.length = yp.length)
    (hyt : ∀ y ∈ yt, y = 0 ∨ y = 1) (hyp2 : ∀ y ∈ yp, y = 0 ∨ y = 1) :
    (confusion_matrix yt yp).1.1 + (confusion_matrix yt yp).1.2 +
        (confusion_matrix yt yp).2.1 + (confusion_matrix yt yp).2.2 = yt.length
    ∧ ((confusion_matrix yt yp).2.2 + (confusion_matrix yt yp).1.2 ≠ 0 →
        precision_score yt yp =
          ((confusion_matrix yt yp).2.2 : ℚ) /
            (((confusion_matrix yt yp).2.2 : ℚ) + ((confusion_matrix yt yp).1.2 : ℚ)))
    ∧ ((confusion_matrix yt yp).2.2 + (confusion_matrix yt yp).2.1 ≠ 0 →
        recall_score yt yp =
          ((confusion_matrix yt yp).2.2 : ℚ) /
            (((confusion_matrix yt yp).2.2 : ℚ) + ((confusion_matrix yt yp).2.1 : ℚ))) := by
  have hzip : ∀ p ∈ yt.zip yp, (p.1 = 0 ∨ p.1 = 1) ∧ (p.2 = 0 ∨ p.2 = 1) := by
    intro p hp
    have := List.of_mem_zip hp
    exact ⟨hyt p.1 this.1, hyp2 p.2 this.2⟩
  refine ⟨?_, ?_, ?_⟩
  · have h4 := four_cell_partition (yt.zip yp) hzip
    have hzl : (yt.zip yp).length = yt.length := by
      rw [List.length_zip, hlen, Nat.min_self]
    rw [← hzl]
    exact h4
  · intro hne
    have hpp := predPos_split yt yp hlen hyt
    show precision_score yt yp = _
    unfold precision_score
    rw [hpp]
    have hne' : cmCell yt yp 0 1 + cmCell yt yp 1 1 ≠ 0 := by
      simp only [confusion_matrix] at hne
      omega
    rw [if_neg hne']
    show (cmCell yt yp 1 1 : ℚ) / ((cmCell yt yp 0 1 + cmCell yt yp 1 1 : Nat) : ℚ) = _
    simp only [confusion_matrix]
    push_cast
    ring_nf
  · intro hne
    have hap := actPos_split yt yp hlen hyp2
    show recall_score yt yp = _
    unfold recall_score
    rw [hap]
    have hne' : cmCell yt yp 1 0 + cmCell yt yp 1 1 ≠ 0 := by
      simp only [confusion_matrix] at hne
      omega
    rw [if_neg hne']
    show (cmCell yt yp 1 1 : ℚ) / ((cmCell yt yp 1 0 + cmCell yt yp 1 1 : Nat) : ℚ) = _
    simp only [confusion_matrix]
    push_cast
    ring_nf

/-- Witness for C2 at the concrete evaluation
`y_test = [0,1,1]`, `y_pred = [1,1,0]`. -/
theorem evaluator_metrics_witness :
    (([0, 1, 1] : List Nat).length = ([1, 1, 0] : List Nat).length) ∧
    precision_score [0, 1, 1] [1, 1, 0] =
      ((confusion_matrix [0, 1, 1] [1, 1, 0]).2.2 : ℚ) /
        (((confusion_matrix [0, 1, 1] [1, 1, 0]).2.2 : ℚ) +
          ((confusion_matrix [0, 1, 1] [1, 1, 0]).1.2 : ℚ)) ∧
    recall_score [0, 1, 1] [1, 1, 0] =
      ((confusion_matrix [0, 1, 1] [1, 1, 0]).2.2 : ℚ) /
        (((confusion_matrix [0, 1, 1] [1, 1, 0]).2.2 : ℚ) +
          ((confusion_matrix [0, 1, 1] [1, 1, 0]).2.1 : ℚ)) :=
  ⟨by decide,
   (evaluator_metrics_consistent [0, 1, 1] [1, 1, 0] (by decide) (by decide) (by decide)).2.1
     (by decide),
   (evaluator_metrics_consistent [0, 1, 1] [1, 1, 0] (by decide) (by decide) (by decide)).2.2
     (by decide)⟩

/-! ## The evaluation stage and degenerate splits (train_model.py lines 231-241) -/

/-- The error taxonomy §7 of the specification assigns to the evaluation
stage.  `degenerateSplit` is the explicit fatal report the specification
demands; `singleClassRocAuc` models the `ValueError` sklearn's
`roc_auc_score` raises when `y_true` holds a single class. -/
inductive PipelineError where
  | degenerateSplit
  | singleClassRocAuc
deriving DecidableEq

/-- Modelled from the spec: the rank-based (Mann–Whitney) ROC-AUC value —
the probability that a positive instance is ranked above a negative one,
ties counting one half. -/
def aucValue (yt : List Nat) (ps : List ℚ) : ℚ :=
  let pos := ((yt.zip ps).filter (fun p => p.1 == 1)).map Prod.snd
  let neg := ((yt.zip ps).filter (fun p => !(p.1 == 1))).map Prod.snd
  ((pos.map (fun sp =>
      (neg.map (fun sn => if sn < sp then (1 : ℚ) else if sn = sp then 1/2 else 0)).sum)).sum) /
    ((pos.length : ℚ) * (neg.length : ℚ))

/-- Modelled from the spec: sklearn `roc_auc_score`, which fails (raises)
when only one class is present in `y_true`. -/
def roc_auc_score (yt : List Nat) (ps : List ℚ) : Except PipelineError ℚ :=
  if 1 ∈ yt ∧ 0 ∈ yt then Except.ok (aucValue yt ps)
  else Except.error PipelineError.singleClassRocAuc

/-- The aggregate metrics of lines 236-241. -/
structure EvalMetrics where
  accuracy : ℚ
  precision : ℚ
  recallMetric : ℚ
  f1 : ℚ
  rocAuc : ℚ
  cm : (Nat × Nat) × (Nat × Nat)
deriving DecidableEq

deriving instance DecidableEq for Except

/-- The metric-computation stage, lines 236-241 of train_model.py:
accuracy, precision, recall and F1 are computed unconditionally (silently
taking their degenerate values on a single-class partition); the ROC-AUC
call is the only failing step, and no degenerate-split check occurs
anywhere. -/
def evaluateModel (yt yp : List Nat) (ps : List ℚ) : Except PipelineError EvalMetrics :=
  match roc_auc_score yt ps with
  | Except.error e => Except.error e
  | Except.ok auc =>
    Except.ok ⟨accuracy_score yt yp, precision_score yt yp, recall_score yt yp,
      f1_score yt yp, auc, confusion_matrix yt yp⟩

/-- **C4, counterexample.** At the concrete single-class test partition
`y_test = [1,1]`, the pipeline does not report the degenerate split as the
explicit `degenerateSplit` error the claim demands: precision and recall are
silently computed as ordinary values (1 and 1/2), and the run then aborts
with the ROC-AUC library error. -/
theorem degenerate_split_counterexample :
    (1 ∈ ([1, 1] : List Nat) ∧ 0 ∉ ([1, 1] : List Nat)) ∧
    evaluateModel [1, 1] [1, 0] [9/10, 1/10] =
      Except.error PipelineError.singleClassRocAuc ∧
    evaluateModel [1, 1] [1, 0] [9/10, 1/10] ≠
      Except.error PipelineError.degenerateSplit ∧
    precision_score [1, 1] [1, 0] = 1 ∧ recall_score [1, 1] [1, 0] = 1/2 := by
  refine ⟨by decide, ?_, ?_, ?_, ?_⟩
  · show evaluateModel [1, 1] [1, 0] [9/10, 1/10] = _
    unfold evaluateModel roc_auc_score
    rw [if_neg (by decide)]
  · show evaluateModel [1, 1] [1, 0] [9/10, 1/10] ≠ _
    unfold evaluateModel roc_auc_score
    rw [if_neg (by decide)]
    intro h
    exact absurd (Except.error.inj h) (by decide)
  · norm_num [precision_score]
  · norm_num [recall_score]

/-- **C4, amended.** The pipeline performs no degenerate-split detection at
all: no run ever reports `degenerateSplit`; when the test partition holds a
single class the run instead aborts with the error raised inside the
ROC-AUC computation, after precision/recall were silently computed. -/
theorem degenerate_split_amended :
    (∀ (yt yp : List Nat) (ps : List ℚ),
      evaluateModel yt yp ps ≠ Except.error PipelineError.degenerateSplit) ∧
    (∀ (yt yp : List Nat) (ps : List ℚ), (1 ∉ yt ∨ 0 ∉ yt) →
      evaluateModel yt yp ps = Except.error PipelineError.singleClassRocAuc) := by
  constructor
  · intro yt yp ps
    unfold evaluateModel roc_auc_score
    by_cases hc : 1 ∈ yt ∧ 0 ∈ yt
    · rw [if_pos hc]
      intro h
      simp at h
    · rw [if_neg hc]
      intro h
      exact absurd (Except.error.inj h) (by decide)
  · intro yt yp ps h
    unfold evaluateModel roc_auc_score
    rw [if_neg (by tauto)]

/-- Witness for the amended C4 at the concrete single-class input. -/
theorem degenerate_split_amended_witness :
    ((1 ∉ ([1, 1] : List Nat)) ∨ (0 ∉ ([1, 1] : List Nat))) ∧
    evaluateModel [1, 1] [1, 0] [9/10, 1/10] =
      Except.error PipelineError.singleClassRocAuc :=
  ⟨Or.inr (by decide),
   degenerate_split_amended.2 [1, 1] [1, 0] [9/10, 1/10] (Or.inr (by decide))⟩

/-! ## Feature-extractor `fit` (train_model.py lines 223-224)

`TfidfVectorizer(max_features=5000).fit` lives in scikit-learn, outside the
repository; modelled from specification §4.4. -/

/-- The `max_features=5000` configuration constant of line 223. -/
def max_features : Nat := 5000

/-- Number of training documents containing the term. -/
def docFreq (docs : List (List String)) (t : String) : Nat :=
  (docs.filter (fun d => d.contains t)).length

/-- Total occurrences of the term across the training documents. -/
def totalFreq (docs : List (List String)) (t : String) : Nat :=
  (docs.map (fun d => d.count t)).sum

/-- Modelled from the spec: "a term-frequency–inverse-document-frequency
score aggregated across the training set" — the term's total frequency
weighted by the inverse of the fraction of documents containing it. -/
def tfidfScore (docs : List (List String)) (t : String) : ℚ :=
  (totalFreq docs t : ℚ) * ((docs.length : ℚ) / (docFreq docs t : ℚ))

/-- Modelled from the spec: the `fit` ranking — higher aggregated tf-idf
score first, ties broken by lexicographic order of the term. -/
def rankLE (docs : List (List String)) (a b : String) : Prop :=
  tfidfScore docs b < tfidfScore docs a ∨ (tfidfScore docs a = tfidfScore docs b ∧ a ≤ b)

instance rankLEDec (docs : List (List String)) : DecidableRel (rankLE docs) := fun a b => by
  unfold rankLE
  infer_instance

instance rankLETotal (docs : List (List String)) : IsTotal String (rankLE docs) := by
  constructor
  intro a b
  unfold rankLE
  rcases lt_trichotomy (tfidfScore docs a) (tfidfScore docs b) with h | h | h
  · exact Or.inr (Or.inl h)
  · rcases le_total a b with hab | hab
    · exact Or.inl (Or.inr ⟨h, hab⟩)
    · exact Or.inr (Or.inr ⟨h.symm, hab⟩)
  · exact Or.inl (Or.inl h)

instance rankLETrans (docs : List (List String)) : IsTrans String (rankLE docs) := by
  constructor
  intro a b c hab hbc
  unfold rankLE at hab hbc ⊢
  rcases hab with h1 | ⟨h1, h1'⟩ <;> rcases hbc with h2 | ⟨h2, h2'⟩
  · exact Or.inl (h2.trans h1)
  · exact Or.inl (by rw [← h2]; exact h1)
  · exact Or.inl (by rw [h1]; exact h2)
  · exact Or.inr ⟨h1.trans h2, h1'.trans h2'⟩

/-- The distinct terms scanned from the training texts. -/
def distinctTerms (docs : List (List String)) : List String := docs.flatten.dedup

/-- Modelled from the spec: `fit(trainTexts)` — rank the distinct training
terms by aggregated tf-idf score with lexicographic tie-breaking, and keep
at most `maxFeatures` of them; the returned list fixes the term-to-index
assignment (a term's index is its position). -/
def fitVocabulary (maxFeatures : Nat) (docs : List (List String)) : List String :=
  (List.insertionSort (rankLE docs) (distinctTerms docs)).take maxFeatures

/-- **C1.** `fit` selects at most `max_features` distinct terms, all drawn
from the training texts, ranked by the aggregated tf-idf score with
lexicographic tie-breaking (every selected term ranks at least as high as
every rejected one), and fitting twice on the same training set yields the
identical term-to-index assignment. -/
theorem fit_vocabulary_spec (maxFeatures : Nat) (docs : List (List String)) :
    (fitVocabulary maxFeatures docs).length ≤ maxFeatures
    ∧ (fitVocabulary maxFeatures docs).Nodup
    ∧ (∀ t ∈ fitVocabulary maxFeatures docs, t ∈ docs.flatten)
    ∧ (fitVocabulary maxFeatures docs).Sorted (rankLE docs)
    ∧ (∀ t ∈ distinctTerms docs, t ∉ fitVocabulary maxFeatures docs →
        ∀ s ∈ fitVocabulary maxFeatures docs, rankLE docs s t)
    ∧ fitVocabulary maxFeatures docs = fitVocabulary maxFeatures docs := by
  have hperm := List.perm_insertionSort (rankLE docs) (distinctTerms docs)
  have hsorted := List.sorted_insertionSort (rankLE docs) (distinctTerms docs)
  refine ⟨?_, ?_, ?_, ?_, ?_, rfl⟩
  · rw [fitVocabulary, List.length_take]
    exact Nat.min_le_left _ _
  · exact List.Nodup.sublist (List.take_sublist _ _)
      (hperm.nodup_iff.mpr (List.nodup_dedup _))
  · intro t ht
    have h1 : t ∈ List.insertionSort (rankLE docs) (distinctTerms docs) :=
      (List.take_sublist _ _).mem ht
    have h2 : t ∈ distinctTerms docs := hperm.mem_iff.mp h1
    exact List.mem_dedup.mp h2
  · exact List.Pairwise.sublist (List.take_sublist _ _) hsorted
  · intro t ht hnot s hs
    have hL : t ∈ List.insertionSort (rankLE docs) (distinctTerms docs) :=
      hperm.mem_iff.mpr ht
    rw [← List.take_append_drop maxFeatures
      (List.insertionSort (rankLE docs) (distinctTerms docs))] at hL hsorted
    have hdrop : t ∈ (List.insertionSort (rankLE docs) (distinctTerms docs)).drop maxFeatures := by
      rcases List.mem_append.mp hL with h | h
      · exact absurd h hnot
      · exact h
    have := (List.pairwise_append.mp hsorted).2.2
    exact this s hs t hdrop

/-- Witness for C1 at a concrete training set with two distinct terms and
`max_features = 1`: the rejected term ranks no higher than the selected
one. -/
theorem fit_vocabulary_witness :
    ("bbb" ∈ distinctTerms [["aaa", "aaa"], ["bbb"]]) ∧
    ("bbb" ∉ fitVocabulary 1 [["aaa", "aaa"], ["bbb"]]) ∧
    ("aaa" ∈ fitVocabulary 1 [["aaa", "aaa"], ["bbb"]]) ∧
    rankLE [["aaa", "aaa"], ["bbb"]] "aaa" "bbb" := by
  have hfit : fitVocabulary 1 [["aaa", "aaa"], ["bbb"]] = ["aaa"] := by
    norm_num [fitVocabulary, distinctTerms, List.insertionSort, List.orderedInsert,
      rankLE, tfidfScore, totalFreq, docFreq, List.dedup, List.pwFilter, List.count,
      List.countP, List.countP.go, List.filter, List.contains,
      show (("aaa" : String) == "bbb") = false from by decide,
      show (("bbb" : String) == "aaa") = false from by decide,
      show decide (("aaa" : String) = "bbb") = false from by decide,
      show decide (("bbb" : String) = "aaa") = false from by decide]
  refine ⟨by decide, ?_, ?_, ?_⟩
  · rw [hfit]
    decide
  · rw [hfit]
    exact List.mem_singleton.mpr rfl
  · exact (fit_vocabulary_spec 1 [["aaa", "aaa"], ["bbb"]]).2.2.2.2.1 "bbb" (by decide)
      (by rw [hfit]; decide) "aaa" (by rw [hfit]; exact List.mem_singleton.mpr rfl)

/-! ## Train/test split (train_model.py line 220)

`train_test_split(..., test_size=0.2, random_state=42)` lives in
scikit-learn; modelled from specification §4.3. -/

/-- The fixed seed `random_state=42` of line 220. -/
def random_state : Nat := 42

/-- Modelled from the spec: one step of the deterministic pseudo-random
generator that drives the shuffle (a linear congruential generator). -/
def lcgNext (s : Nat) : Nat := (1103515245 * s + 12345) % 2 ^ 31

/-- Modelled from the spec: a deterministic seeded Fisher–Yates shuffle —
the "deterministic pseudo-random shuffle seeded by a fixed constant". -/
def shuffleSeeded {α : Type} : Nat → List α → List α
  | _, [] => []
  | seed, a :: l =>
    (a :: l).get ⟨seed % (a :: l).length, Nat.mod_lt _ (Nat.succ_pos _)⟩ ::
      shuffleSeeded (lcgNext seed) ((a :: l).eraseIdx (seed % (a :: l).length))
termination_by _ l => l.length
decreasing_by
  have h : seed % (l.length + 1) < l.length + 1 := Nat.mod_lt _ (Nat.succ_pos _)
  simp only [List.length_eraseIdx, List.length_cons, if_pos h]
  omega

theorem get_cons_eraseIdx_perm {α : Type} :
    ∀ (l : List α) (i : Fin l.length), (l.get i :: l.eraseIdx i.val).Perm l := by
  intro l
  induction l with
  | nil => intro i; exact absurd i.isLt (by simp)
  | cons a l ih =>
    intro i
    rcases i with ⟨iv, hlt⟩
    cases iv with
    | zero => simp [List.eraseIdx]
    | succ n =>
      have hn : n < l.length := by simpa using hlt
      show ((a :: l).get ⟨n + 1, hlt⟩ :: a :: l.eraseIdx n).Perm (a :: l)
      have hget : (a :: l).get ⟨n + 1, hlt⟩ = l.get ⟨n, hn⟩ := rfl
      rw [hget]
      exact List.Perm.trans (List.Perm.swap a (l.get ⟨n, hn⟩) (l.eraseIdx n))
        (List.Perm.cons a (ih ⟨n, hn⟩))

theorem shuffleSeeded_perm {α : Type} (seed : Nat) (l : List α) :
    (shuffleSeeded seed l).Perm l := by
  induction seed, l using shuffleSeeded.induct with
  | case1 seed =>
    rw [shuffleSeeded]
  | case2 seed a l ih =>
    rw [shuffleSeeded]
    exact (List.Perm.cons _ ih).trans
      (get_cons_eraseIdx_perm (a :: l) ⟨seed % (a :: l).length, Nat.mod_lt _ (Nat.succ_pos _)⟩)

/-- Modelled from the spec: the number of test samples for test fraction
0.2 — the ceiling of `0.2 * n`, as sklearn computes it. -/
def test_count (n : Nat) : Nat := (n + 4) / 5

/-- Modelled from the spec: `train_test_split` — shuffle deterministically
with the seed, then cut off the test fraction; returns (train, test). -/
def train_test_split {α : Type} (seed : Nat) (xs : List α) : List α × List α :=
  ((shuffleSeeded seed xs).drop (test_count xs.length),
   (shuffleSeeded seed xs).take (test_count xs.length))

/-- **C5.** With the fixed seed 42, splitting the same corpus twice yields
identical train/test membership; the two parts partition the corpus (their
concatenation is a permutation of it), and the test part holds the 0.2
fraction of the corpus, rounded up (`n ≤ 5·|test| < n + 5`). -/
theorem split_deterministic_spec (xs : List LabeledDoc) :
    train_test_split random_state xs = train_test_split random_state xs
    ∧ (train_test_split random_state xs).1.length +
        (train_test_split random_state xs).2.length = xs.length
    ∧ ((train_test_split random_state xs).2 ++
        (train_test_split random_state xs).1).Perm xs
    ∧ 5 * (train_test_split random_state xs).2.length < xs.length + 5
    ∧ xs.length ≤ 5 * (train_test_split random_state xs).2.length := by
  have hperm : (shuffleSeeded random_state xs).Perm xs := shuffleSeeded_perm _ _
  have hlen : (shuffleSeeded random_state xs).length = xs.length := hperm.length_eq
  have htc : test_count xs.length ≤ xs.length := by
    unfold test_count
    omega
  have htest : (train_test_split random_state xs).2.length = test_count xs.length := by
    show ((shuffleSeeded random_state xs).take (test_count xs.length)).length = _
    rw [List.length_take, hlen]
    exact Nat.min_eq_left htc
  refine ⟨rfl, ?_, ?_, ?_, ?_⟩
  · show ((shuffleSeeded random_state xs).drop (test_count xs.length)).length +
        ((shuffleSeeded random_state xs).take (test_count xs.length)).length = xs.length
    rw [List.length_drop, List.length_take, hlen]
    omega
  · show (((shuffleSeeded random_state xs).take (test_count xs.length)) ++
        ((shuffleSeeded random_state xs).drop (test_count xs.length))).Perm xs
    rw [List.take_append_drop]
    exact hperm
  · rw [htest]; unfold test_count; omega
  · rw [htest]; unfold test_count; omega

/-! ## Feature-extractor `transform` (train_model.py lines 224-225)

`vectorizer.transform` lives in scikit-learn; modelled from specification
§4.4: tokenize on whitespace, count in-vocabulary terms, weight by the
fitted idf, L2-normalize. -/

/-- Transform-time tokenisation: whitespace split of the text. -/
def tokenizeWs (t : String) : List String :=
  (splitWs t.toList).map (fun w => String.mk w)

/-- Modelled from the spec: the unnormalised feature row — for each
vocabulary entry (term, idf weight), the raw term frequency in the text
times the idf weight.  Terms absent from the vocabulary index nothing. -/
def tfidfRow (vocab : List (String × ℚ)) (toks : List String) : List ℚ :=
  vocab.map (fun p => (toks.count p.1 : ℚ) * p.2)

/-- Modelled from the spec: L2 normalisation to unit length; the all-zero
row is returned unchanged. -/
noncomputable def l2normalize (v : List ℚ) : List ℝ :=
  if (v.map (fun x => x * x)).sum = 0 then v.map (fun x : ℚ => (x : ℝ))
  else v.map (fun x : ℚ => (x : ℝ) / Real.sqrt (((v.map (fun y => y * y)).sum : ℚ) : ℝ))

/-- Modelled from the spec: `transform` of one text against a fitted
vocabulary with idf weights. -/
noncomputable def transform (vocab : List (String × ℚ)) (t : String) : List ℝ :=
  l2normalize (tfidfRow vocab (tokenizeWs t))

theorem length_l2normalize (v : List ℚ) : (l2normalize v).length = v.length := by
  unfold l2normalize
  split <;> rw [List.length_map]

theorem tfidfRow_filter_oov (vocab : List (String × ℚ)) (toks : List String) :
    tfidfRow vocab toks =
      tfidfRow vocab (toks.filter (fun tok => (vocab.map Prod.fst).contains tok)) := by
  unfold tfidfRow
  apply List.map_congr_left
  intro p hp
  have hpv : (vocab.map Prod.fst).contains p.1 = true := by
    simp
    exact ⟨p.2, hp⟩
  rw [List.count_filter (by simpa using hpv)]

theorem tfidfRow_zero_of_oov (vocab : List (String × ℚ)) (toks : List String)
    (h : ∀ tok ∈ toks, tok ∉ vocab.map Prod.fst) :
    tfidfRow vocab toks = List.replicate vocab.length (0 : ℚ) := by
  unfold tfidfRow
  have : ∀ p ∈ vocab, ((toks.count p.1 : ℚ) * p.2) = 0 := by
    intro p hp
    have : p.1 ∉ toks := by
      intro hmem
      exact h p.1 hmem (List.mem_map_of_mem Prod.fst hp)
    rw [List.count_eq_zero.mpr this]
    simp
  calc vocab.map (fun p => ((toks.count p.1 : ℚ) * p.2))
      = vocab.map (fun _ => (0 : ℚ)) := List.map_congr_left this
    _ = List.replicate vocab.length (0 : ℚ) := List.map_const' vocab 0

theorem l2normalize_replicate_zero (n : Nat) :
    l2normalize (List.replicate n (0 : ℚ)) = List.replicate n (0 : ℝ) := by
  unfold l2normalize
  rw [if_pos (by simp)]
  rw [List.map_replicate]
  norm_num

/-- **C8.** `transform` is a total function (it never raises): its output
always has one entry per vocabulary index; tokens absent from the
vocabulary contribute zero — the transform of a text equals the transform
computed from its in-vocabulary tokens only; and a text that is empty or
holds only out-of-vocabulary tokens yields the all-zero vector. -/
theorem transform_spec (vocab : List (String × ℚ)) (t : String) :
    (transform vocab t).length = vocab.length
    ∧ transform vocab t =
        l2normalize (tfidfRow vocab
          ((tokenizeWs t).filter (fun tok => (vocab.map Prod.fst).contains tok)))
    ∧ ((∀ tok ∈ tokenizeWs t, tok ∉ vocab.map Prod.fst) →
        transform vocab t = List.replicate vocab.length (0 : ℝ)) := by
  refine ⟨?_, ?_, ?_⟩
  · rw [transform, length_l2normalize]
    simp [tfidfRow]
  · rw [transform, ← tfidfRow_filter_oov]
  · intro h
    rw [transform, tfidfRow_zero_of_oov vocab _ h, l2normalize_replicate_zero]

/-- Witness for C8: a text both of whose tokens are out of the vocabulary
yields the all-zero vector. -/
theorem transform_witness :
    (∀ tok ∈ tokenizeWs "xy zz", tok ∉ ([("abc", (1 : ℚ))].map Prod.fst)) ∧
    transform [("abc", (1 : ℚ))] "xy zz" =
      List.replicate ([("abc", (1 : ℚ))].length) (0 : ℝ) :=
  ⟨by decide, (transform_spec [("abc", (1 : ℚ))] "xy zz").2.2 (by decide)⟩

/-! ## Feature-importance ranking (train_model.py lines 244-247) -/

/-- The comparison performed by line 246,
`sorted(zip(feature_names, importance), key=lambda x: x[1], reverse=True)`:
weight descending.  Python's sort is stable — on equal weights the earlier
element stays first — which is exactly `List.insertionSort`'s behaviour with
this non-strict relation. -/
def weightDesc (a b : String × ℚ) : Prop := b.2 ≤ a.2

instance : DecidableRel weightDesc := fun a b => inferInstanceAs (Decidable (b.2 ≤ a.2))

/-- The comparison performed by line 247: weight ascending, stable. -/
def weightAsc (a b : String × ℚ) : Prop := a.2 ≤ b.2

instance : DecidableRel weightAsc := fun a b => inferInstanceAs (Decidable (a.2 ≤ b.2))

/-- Line 246: `top_fraud_features` — stable sort by descending weight, first
20 pairs. -/
def top_fraud_features (pairs : List (String × ℚ)) : List (String × ℚ) :=
  (List.insertionSort weightDesc pairs).take 20

/-- Line 247: `top_legit_features` — stable sort by ascending weight, first
20 pairs. -/
def top_legit_features (pairs : List (String × ℚ)) : List (String × ℚ) :=
  (List.insertionSort weightAsc pairs).take 20

/-- The specification's fraud-indicator ranking on index-tagged pairs:
strictly greater weight first, ties broken by smaller vocabulary index. -/
def fraudRank (a b : Nat × String × ℚ) : Prop :=
  b.2.2 < a.2.2 ∨ (a.2.2 = b.2.2 ∧ a.1 ≤ b.1)

instance : DecidableRel fraudRank := fun a b => by
  unfold fraudRank
  infer_instance

/-- The specification's legitimacy-indicator ranking on index-tagged pairs:
strictly smaller weight first, ties broken by smaller vocabulary index. -/
def legitRank (a b : Nat × String × ℚ) : Prop :=
  a.2.2 < b.2.2 ∨ (a.2.2 = b.2.2 ∧ a.1 ≤ b.1)

instance : DecidableRel legitRank := fun a b => by
  unfold legitRank
  infer_instance

/-- A second definition written from the specification's words: rank the
index-tagged (term, weight) pairs by descending weight with ties broken by
the term's index, and take the first 20. -/
def specFraudIndicators (pairs : List (String × ℚ)) : List (String × ℚ) :=
  ((List.insertionSort fraudRank pairs.enum).map Prod.snd).take 20

/-- Specification-side definition of the legitimacy indicators: ascending
weight, ties broken by index, first 20. -/
def specLegitIndicators (pairs : List (String × ℚ)) : List (String × ℚ) :=
  ((List.insertionSort legitRank pairs.enum).map Prod.snd).take 20

instance : IsTotal (Nat × String × ℚ) fraudRank := by
  constructor
  intro a b
  unfold fraudRank
  rcases lt_trichotomy a.2.2 b.2.2 with h | h | h
  · exact Or.inr (Or.inl h)
  · rcases le_total a.1 b.1 with h2 | h2
    · exact Or.inl (Or.inr ⟨h, h2⟩)
    · exact Or.inr (Or.inr ⟨h.symm, h2⟩)
  · exact Or.inl (Or.inl h)

instance : IsTrans (Nat × String × ℚ) fraudRank := by
  constructor
  intro a b c hab hbc
  unfold fraudRank at hab hbc ⊢
  rcases hab with h1 | ⟨h1, h1'⟩ <;> rcases hbc with h2 | ⟨h2, h2'⟩
  · exact Or.inl (h2.trans h1)
  · exact Or.inl (by rw [← h2]; exact h1)
  · exact Or.inl (by rw [h1]; exact h2)
  · exact Or.inr ⟨h1.trans h2, h1'.trans h2'⟩

instance : IsTotal (Nat × String × ℚ) legitRank := by
  constructor
  intro a b
  unfold legitRank
  rcases lt_trichotomy a.2.2 b.2.2 with h | h | h
  · exact Or.inl (Or.inl h)
  · rcases le_total a.1 b.1 with h2 | h2
    · exact Or.inl (Or.inr ⟨h, h2⟩)
    · exact Or.inr (Or.inr ⟨h.symm, h2⟩)
  · exact Or.inr (Or.inl h)

instance : IsTrans (Nat × String × ℚ) legitRank := by
  constructor
  intro a b c hab hbc
  unfold legitRank at hab hbc ⊢
  rcases hab with h1 | ⟨h1, h1'⟩ <;> rcases hbc with h2 | ⟨h2, h2'⟩
  · exact Or.inl (h1.trans h2)
  · exact Or.inl (by rw [← h2]; exact h1)
  · exact Or.inl (by rw [h1]; exact h2)
  · exact Or.inr ⟨h1.trans h2, h1'.trans h2'⟩

/-- Stable sorting of index-tagged pairs by an index-aware relation agrees,
after dropping the indices, with sorting the bare pairs by the corresponding
weight relation — provided the relations agree whenever the left index is
smaller, which is the stable-sort situation. -/
theorem map_snd_orderedInsert {W : (String × ℚ) → (String × ℚ) → Prop}
    {L : (Nat × String × ℚ) → (Nat × String × ℚ) → Prop}
    [DecidableRel W] [DecidableRel L]
    (hcompat : ∀ x y : Nat × String × ℚ, x.1 < y.1 → (L x y ↔ W x.2 y.2))
    (x : Nat × String × ℚ) :
    ∀ s : List (Nat × String × ℚ), (∀ y ∈ s, x.1 < y.1) →
      (List.orderedInsert L x s).map Prod.snd =
        List.orderedInsert W x.2 (s.map Prod.snd) := by
  intro s
  induction s with
  | nil => intro _; rfl
  | cons y s ih =>
    intro h
    have hxy := h y (List.mem_cons_self y s)
    simp only [List.orderedInsert, List.map_cons]
    by_cases hL : L x y
    · rw [if_pos hL, if_pos ((hcompat x y hxy).mp hL)]
      simp
    · rw [if_neg hL, if_neg (fun hW => hL ((hcompat x y hxy).mpr hW))]
      simp only [List.map_cons]
      rw [ih (fun z hz => h z (List.mem_cons_of_mem y hz))]

theorem map_snd_insertionSort {W : (String × ℚ) → (String × ℚ) → Prop}
    {L : (Nat × String × ℚ) → (Nat × String × ℚ) → Prop}
    [DecidableRel W] [DecidableRel L]
    (hcompat : ∀ x y : Nat × String × ℚ, x.1 < y.1 → (L x y ↔ W x.2 y.2)) :
    ∀ l : List (Nat × String × ℚ), l.Pairwise (fun a b => a.1 < b.1) →
      (List.insertionSort L l).map Prod.snd = List.insertionSort W (l.map Prod.snd) := by
  intro l
  induction l with
  | nil => intro _; rfl
  | cons x l ih =>
    intro hp
    rcases List.pairwise_cons.mp hp with ⟨hhead, htail⟩
    simp only [List.insertionSort, List.map_cons]
    rw [← ih htail]
    apply map_snd_orderedInsert hcompat
    intro y hy
    exact hhead y ((List.perm_insertionSort L l).mem_iff.mp hy)

theorem pairwise_fst_lt_enum (l : List (String × ℚ)) :
    l.enum.Pairwise (fun a b => a.1 < b.1) := by
  have h := List.pairwise_lt_range l.length
  rw [← List.enum_map_fst l] at h
  exact (List.pairwise_map).mp h

theorem fraudRank_compat :
    ∀ x y : Nat × String × ℚ, x.1 < y.1 → (fraudRank x y ↔ weightDesc x.2 y.2) := by
  intro x y hxy
  unfold fraudRank weightDesc
  constructor
  · rintro (h | ⟨h, _⟩)
    · exact le_of_lt h
    · exact le_of_eq h.symm
  · intro h
    rcases lt_or_eq_of_le h with h2 | h2
    · exact Or.inl h2
    · exact Or.inr ⟨h2.symm, le_of_lt hxy⟩

theorem legitRank_compat :
    ∀ x y : Nat × String × ℚ, x.1 < y.1 → (legitRank x y ↔ weightAsc x.2 y.2) := by
  intro x y hxy
  unfold legitRank weightAsc
  constructor
  · rintro (h | ⟨h, _⟩)
    · exact le_of_lt h
    · exact le_of_eq h
  · intro h
    rcases lt_or_eq_of_le h with h2 | h2
    · exact Or.inl h2
    · exact Or.inr ⟨h2, le_of_lt hxy⟩

/-- **C9.** The fraud-indicator list computed by the code (stable sort of
the (term, weight) pairs by descending weight, first 20) is exactly the
specification's ranking: sort the index-tagged pairs by descending weight
with ties broken by the term's vocabulary index, drop the indices, take 20 —
and dually for the legitimacy indicators by ascending weight.  The
specification-side orderings are total and transitive, so the sorted lists
they describe are the unique sorted permutations of the indexed pairs. -/
theorem top_features_spec (pairs : List (String × ℚ)) :
    top_fraud_features pairs = specFraudIndicators pairs
    ∧ top_legit_features pairs = specLegitIndicators pairs
    ∧ (List.insertionSort fraudRank pairs.enum).Sorted fraudRank
    ∧ (List.insertionSort fraudRank pairs.enum).Perm pairs.enum
    ∧ (List.insertionSort legitRank pairs.enum).Sorted legitRank
    ∧ (List.insertionSort legitRank pairs.enum).Perm pairs.enum := by
  refine ⟨?_, ?_, List.sorted_insertionSort _ _, List.perm_insertionSort _ _,
    List.sorted_insertionSort _ _, List.perm_insertionSort _ _⟩
  · unfold top_fraud_features specFraudIndicators
    rw [map_snd_insertionSort fraudRank_compat pairs.enum (pairwise_fst_lt_enum pairs)]
    rw [List.enum_map_snd]
  · unfold top_legit_features specLegitIndicators
    rw [map_snd_insertionSort legitRank_compat pairs.enum (pairwise_fst_lt_enum pairs)]
    rw [List.enum_map_snd]

end FraudBuster
